import Mathlib

set_option maxRecDepth 8000

/-!
Verification development for the `fav_say_dragon` terminal toy
(`src/main.rs`).  The program renders a fixed 15-line ASCII-art template
with two caption slots cut from a payload string (`create_dragon`), prints
it either once (`say`) or as an animation over three phases of items with
sleep-then-clear transitions (`anime` / `clear_dragon`).

Strings are embedded as `List Char` (Rust operates on `chars()` sequences
and `lines()` iterators).  Widths are measured in characters.
-/

/-- Align of `console::pad_str`, mirroring `console::Alignment`. -/
inductive Align where
  | left
  | center
  | right
  deriving DecidableEq

/-- Model of `console::pad_str(s, width, align, None)`: if the string is
already at least `width` wide it is returned unchanged (the `None` truncation
argument means no truncation), otherwise it is padded with spaces according
to the alignment; centering puts `diff / 2` spaces on the left and the rest
on the right.  Width is measured as the number of characters. -/
def padStr (s : List Char) (width : Nat) (align : Align) : List Char :=
  if width ≤ s.length then s
  else
    let diff := width - s.length
    match align with
    | Align.left => s ++ List.replicate diff ' '
    | Align.center =>
        List.replicate (diff / 2) ' ' ++ s ++ List.replicate (diff - diff / 2) ' '
    | Align.right => List.replicate diff ' ' ++ s

/-- Strips one trailing `"\n"` or `"\r\n"` from a chunk, as the mapping step
of Rust's `str::lines` does on each chunk of `split_inclusive('\n')`. -/
def trimLineEnd (l : List Char) : List Char :=
  if l.getLast? = some '\n' then
    let l' := l.dropLast
    if l'.getLast? = some '\r' then l'.dropLast else l'
  else l

/-- Model of `str::split_inclusive('\n')`: chunks of the string each ending
with `'\n'`, except possibly the last; the empty string yields no chunks. -/
def splitInclusiveNl : List Char → List (List Char)
  | [] => []
  | c :: rest =>
    if c = '\n' then ['\n'] :: splitInclusiveNl rest
    else
      match splitInclusiveNl rest with
      | [] => [[c]]
      | seg :: segs => (c :: seg) :: segs

/-- Model of Rust's `str::lines`: split inclusively on `'\n'` and trim the
line terminator (`"\n"` or `"\r\n"`) from each chunk. -/
def rustLines (s : List Char) : List (List Char) :=
  (splitInclusiveNl s).map trimLineEnd

/-- Single-line branch of `create_dragon` (main.rs:194-205): match on the
char count of the payload with arms `0..=16`, `17..=32` and the rest,
producing `[payload, ""]`, `[first 16, rest]`, `[first 16, chars 16..32]`. -/
def charSplitSlots (side_dish : List Char) : List (List Char) :=
  if side_dish.length ≤ 16 then [side_dish, []]
  else if side_dish.length ≤ 32 then [side_dish.take 16, side_dish.drop 16]
  else [side_dish.take 16, (side_dish.drop 16).take 16]

/-- Multi-line branch of `create_dragon` (main.rs:206-211): collect the
payload's lines in reverse order into a vector, then `Vec::pop` (remove from
the back) twice with `unwrap_or("")`. -/
def lineSlots (side_dish : List Char) : List (List Char) :=
  let ls := (rustLines side_dish).reverse
  let line0 := ls.getLast?.getD []
  let ls' := ls.dropLast
  let line1 := ls'.getLast?.getD []
  [line0, line1]

/-- Slot derivation of `create_dragon` (main.rs:192-212): dispatch on
`side_dish.lines().count()`. -/
def dragonSlots (side_dish : List Char) : List (List Char) :=
  match (rustLines side_dish).length with
  | 0 => [[], []]
  | 1 => charSplitSlots side_dish
  | _ + 2 => lineSlots side_dish

/-- The derived slots, each center-padded to the fixed 20-column slot width
(main.rs:213-215). -/
def dragonPaddedSlots (side_dish : List Char) : List (List Char) :=
  (dragonSlots side_dish).map (fun l => padStr l 20 Align.center)

/-- Fuel-indexed worker for `str::replace`: scan left to right, and at each
position where the (nonempty) pattern is a prefix, emit the replacement and
skip the pattern without rescanning the replacement.  The fuel is only a
structural-termination device; `replaceAll` supplies enough of it. -/
def replaceAllFuel (pat rep : List Char) : Nat → List Char → List Char
  | _, [] => []
  | 0, s => s
  | fuel + 1, c :: rest =>
    if pat ≠ [] ∧ pat.isPrefixOf (c :: rest) then
      rep ++ replaceAllFuel pat rep fuel ((c :: rest).drop pat.length)
    else
      c :: replaceAllFuel pat rep fuel rest

/-- Model of `str::replace(pat, rep)` for a nonempty pattern. -/
def replaceAll (pat rep s : List Char) : List Char :=
  replaceAllFuel pat rep s.length s

/-- The constant 15-line ASCII-art template (main.rs:218-232), verbatim. -/
def dragonTemplate : List Char :=
  "                                          ,. ､
                                        く  r\x27,ゝ
r\x27￣￣￣￣￣￣￣￣￣ヽ                   ,ゝｰ\x27､
|                    |          ､      ／      ヽ.
|                    |        く、｀ヽ/  ∩       |
|$line1$ ＞        ｀＞             |
|$line2$|         く´ , -\x277         レ个ー─┐
|                    |          ｀´   //  /      ー个ー─\x277
|                    |               //  /         |    (
ゝ＿＿＿＿＿＿＿＿__ノ              //  /\x27┤      |ヽv\x27⌒ヽ､ゝ
                                   くﾉ  lｰ┤       ヽ.
                                    ｀^^\x27ｰ┤          ▽_
                                    ((    )          ヽ乙_
                                    ((    )ヽ､          ヽレl
                                    ≧＿_ゝ    ｀ﾞー-=､.＿_,ゝ".data

/-- The first substitution marker. -/
def line1Marker : List Char := "$line1$".data

/-- The second substitution marker. -/
def line2Marker : List Char := "$line2$".data

/-- The template after substituting the two padded slots
(`.replace("$line1$", &lines[0]).replace("$line2$", &lines[1])`,
main.rs:234-236). -/
def substDragon (side_dish : List Char) : List Char :=
  let lines := dragonPaddedSlots side_dish
  replaceAll line2Marker (lines.getD 1 [])
    (replaceAll line1Marker (lines.getD 0 []) dragonTemplate)

/-- Model of `create_dragon` (main.rs:191-240): derive and pad the slots,
substitute them into the template, and left-pad every resulting line to the
terminal width. -/
def create_dragon (side_dish : List Char) (terminal_width : Nat) : List (List Char) :=
  (rustLines (substDragon side_dish)).map
    (fun line => padStr line terminal_width Align.left)

/-- The substituted art for the empty payload: the template with each marker
replaced by twenty spaces (a "blank" frame before terminal-width padding). -/
def blankArt : List Char :=
  "                                          ,. ､
                                        く  r\x27,ゝ
r\x27￣￣￣￣￣￣￣￣￣ヽ                   ,ゝｰ\x27､
|                    |          ､      ／      ヽ.
|                    |        く、｀ヽ/  ∩       |
|                     ＞        ｀＞             |
|                    |         く´ , -\x277         レ个ー─┐
|                    |          ｀´   //  /      ー个ー─\x277
|                    |               //  /         |    (
ゝ＿＿＿＿＿＿＿＿__ノ              //  /\x27┤      |ヽv\x27⌒ヽ､ゝ
                                   くﾉ  lｰ┤       ヽ.
                                    ｀^^\x27ｰ┤          ▽_
                                    ((    )          ヽ乙_
                                    ((    )ヽ､          ヽレl
                                    ≧＿_ゝ    ｀ﾞー-=､.＿_,ゝ".data

/-- Rust slice `&l[a..b]` of a char vector, made fallible: `none` models the
out-of-bounds panic. -/
def sliceChecked (l : List Char) (a b : Nat) : Option (List Char) :=
  if a ≤ b ∧ b ≤ l.length then some ((l.take b).drop a) else none

/-- `charSplitSlots` with every slice checked: the single-line branch of
`create_dragon` with `&side_dish[..16]`, `&side_dish[16..]`,
`&side_dish[16..32]` returning `none` instead of panicking out of bounds. -/
def charSplitSlotsChecked (side_dish : List Char) : Option (List (List Char)) :=
  if side_dish.length ≤ 16 then some [side_dish, []]
  else if side_dish.length ≤ 32 then do
    let s1 ← sliceChecked side_dish 0 16
    let s2 ← sliceChecked side_dish 16 side_dish.length
    pure [s1, s2]
  else do
    let s1 ← sliceChecked side_dish 0 16
    let s2 ← sliceChecked side_dish 16 32
    pure [s1, s2]

/-- `dragonSlots` with the single-line branch's slices checked (the
multi-line branch uses `Vec::pop ... unwrap_or` and cannot panic). -/
def dragonSlotsChecked (side_dish : List Char) : Option (List (List Char)) :=
  match (rustLines side_dish).length with
  | 0 => some [[], []]
  | 1 => charSplitSlotsChecked side_dish
  | _ + 2 => some (lineSlots side_dish)

/-- `create_dragon` with every panicking operation checked: the slices of
the single-line branch and the vector indexings `lines[0]` / `lines[1]`
used by the two `replace` calls. -/
def create_dragonChecked (side_dish : List Char) (terminal_width : Nat) :
    Option (List (List Char)) := do
  let slots ← dragonSlotsChecked side_dish
  let lines := slots.map (fun l => padStr l 20 Align.center)
  let l0 ← lines[0]?
  let l1 ← lines[1]?
  pure ((rustLines (replaceAll line2Marker l1 (replaceAll line1Marker l0 dragonTemplate))).map
    (fun line => padStr line terminal_width Align.left))

/-- A terminal effect: one `Term::write_line`, one `Term::clear_screen`, or
one `thread::sleep` of the given milliseconds. -/
inductive Ev where
  | write (line : List Char)
  | clearScreen
  | sleepMs (ms : Nat)
  deriving DecidableEq

/-- Is the event a sleep? -/
def isSleep : Ev → Bool
  | Ev.sleepMs _ => true
  | _ => false

/-- Is the event a screen clear? -/
def isClear : Ev → Bool
  | Ev.clearScreen => true
  | _ => false

/-- Is the event a write of one line? -/
def isWrite : Ev → Bool
  | Ev.write _ => true
  | _ => false

/-- Terminal operations are the events that can fail (writes and clears);
sleeps cannot. -/
def isTermOp (e : Ev) : Bool := !isSleep e

/-- Number of sleep events, i.e. of sleep-then-clear transitions (each
`clear_dragon` call contributes exactly one sleep). -/
def countSleeps (evs : List Ev) : Nat := (evs.filter isSleep).length

/-- Number of screen-clear events. -/
def countClears (evs : List Ev) : Nat := (evs.filter isClear).length

/-- Number of fallible terminal operations. -/
def countOps (evs : List Ev) : Nat := (evs.filter isTermOp).length

/-- Events of `clear_dragon` (main.rs:183-189): sleep for the interval, then
clear the screen (the function also resets the printed flag to `false`,
which the callers below thread explicitly). -/
def clear_dragon (interval : Nat) : List Ev :=
  [Ev.sleepMs interval, Ev.clearScreen]

/-- The block of lines printed for one pre- or after-caption
(main.rs:130-134 and 169-173): the empty dragon followed by the caption
center-padded to 60 columns. -/
def preBlock (w : Nat) (caption : List Char) : List (List Char) :=
  create_dragon [] w ++ [padStr caption 60 Align.center]

/-- The block of lines printed for one side dish (main.rs:149-154): its
dragon frame followed by an empty line center-padded to 60 columns. -/
def dishBlock (w : Nat) (side_dish : List Char) : List (List Char) :=
  create_dragon side_dish w ++ [padStr [] 60 Align.center]

/-- One phase loop of `anime`: for each item print its block (setting the
printed flag when the loop body does), and between consecutive items run
`clear_dragon` (which resets the flag).  `setsFlag` is `true` for the
pre-caption and side-dish loops, `false` for the after-caption loop, whose
body never sets the flag. -/
def phaseEvs (block : List Char → List (List Char)) (interval : Nat) (setsFlag : Bool) :
    List (List Char) → Bool → List Ev × Bool
  | [], flag => ([], flag)
  | x :: rest, flag =>
    let writes := (block x).map Ev.write
    let flag1 := if setsFlag then true else flag
    match rest with
    | [] => (writes, flag1)
    | y :: rest' =>
      let r := phaseEvs block interval setsFlag (y :: rest') false
      (writes ++ clear_dragon interval ++ r.1, r.2)

/-- A phase boundary of `anime` (main.rs:144-146 and 164-166): if the
printed flag is set and the next phase's list is nonempty, run
`clear_dragon` (resetting the flag). -/
def boundaryEvs (interval : Nat) (flag cond : Bool) : List Ev × Bool :=
  if flag && cond then (clear_dragon interval, false) else ([], flag)

/-- The event trace of `anime` (main.rs:103-181) after configuration
loading: one initial screen clear, then the pre-caption phase, the boundary
into the side-dish phase, the side-dish phase, the boundary into the
after-caption phase, and the after-caption phase.  The printed flag starts
`false` and is threaded through phases and boundaries. -/
def animeTrace (pres dishes afters : List (List Char)) (interval w : Nat) : List Ev :=
  let p1 := phaseEvs (preBlock w) interval true pres false
  let b1 := boundaryEvs interval p1.2 (!dishes.isEmpty)
  let p2 := phaseEvs (dishBlock w) interval true dishes b1.2
  let b2 := boundaryEvs interval p2.2 (!afters.isEmpty)
  let p3 := phaseEvs (preBlock w) interval false afters b2.2
  Ev.clearScreen :: (p1.1 ++ b1.1 ++ p2.1 ++ b2.1 ++ p3.1)

/-- The event trace of `say` (main.rs:89-101): the dragon frame for the side
dish, then the caption (defaulting to empty) center-padded to 60 columns.
No sleeps and no clears. -/
def sayTrace (side_dish : List Char) (caption : Option (List Char)) (w : Nat) : List Ev :=
  (create_dragon side_dish w).map Ev.write ++
    [Ev.write (padStr (caption.getD []) 60 Align.center)]

/-- Run a straight-line event list against an oracle `ok` telling whether
the `i`-th fallible terminal operation succeeds.  Returns the outcome, the
events actually performed or attempted (the failing operation included), and
the next operation index.  Execution stops at the first failing operation,
modelling Rust's `?` propagation. -/
def execEvs (ok : Nat → Bool) : Nat → List Ev → Except Unit Unit × List Ev × Nat
  | i, [] => (Except.ok (), [], i)
  | i, e :: rest =>
    if isTermOp e then
      if ok i then
        let r := execEvs ok (i + 1) rest
        (r.1, e :: r.2.1, r.2.2)
      else (Except.error (), [e], i + 1)
    else
      let r := execEvs ok i rest
      (r.1, e :: r.2.1, r.2.2)

/-- One phase loop of `anime` with fallible terminal operations: each block
write and each `clear_dragon` call propagates its failure immediately, as
the `?` operators in the source do. -/
def phaseRunE (ok : Nat → Bool) (block : List Char → List (List Char)) (interval : Nat)
    (setsFlag : Bool) : Nat → List (List Char) → Bool →
    Except Unit Unit × List Ev × Nat × Bool
  | i, [], flag => (Except.ok (), [], i, flag)
  | i, x :: rest, flag =>
    match execEvs ok i ((block x).map Ev.write) with
    | (Except.error e, tr, j) => (Except.error e, tr, j, flag)
    | (Except.ok _, tr, j) =>
      let flag1 := if setsFlag then true else flag
      match rest with
      | [] => (Except.ok (), tr, j, flag1)
      | y :: rest' =>
        match execEvs ok j (clear_dragon interval) with
        | (Except.error e, tr2, k) => (Except.error e, tr ++ tr2, k, flag1)
        | (Except.ok _, tr2, k) =>
          let r := phaseRunE ok block interval setsFlag k (y :: rest') false
          (r.1, tr ++ tr2 ++ r.2.1, r.2.2.1, r.2.2.2)

/-- A phase boundary of `anime` with fallible terminal operations. -/
def boundaryRunE (ok : Nat → Bool) (interval : Nat) (i : Nat) (flag cond : Bool) :
    Except Unit Unit × List Ev × Nat × Bool :=
  if flag && cond then
    match execEvs ok i (clear_dragon interval) with
    | (r, tr, j) => (r, tr, j, false)
  else (Except.ok (), [], i, flag)

/-- `anime` (main.rs:103-181) with fallible terminal operations: the initial
`clear_screen()?`, then the three phases and two boundaries, every step
propagating the first failure immediately and performing nothing after it. -/
def animeE (ok : Nat → Bool) (pres dishes afters : List (List Char)) (interval w : Nat) :
    Except Unit Unit × List Ev × Nat :=
  if ok 0 then
    match phaseRunE ok (preBlock w) interval true 1 pres false with
    | (Except.error e, tr, j, _) => (Except.error e, Ev.clearScreen :: tr, j)
    | (Except.ok _, tr1, j1, f1) =>
      match boundaryRunE ok interval j1 f1 (!dishes.isEmpty) with
      | (Except.error e, tr, j, _) => (Except.error e, Ev.clearScreen :: (tr1 ++ tr), j)
      | (Except.ok _, trb1, j2, f1') =>
        match phaseRunE ok (dishBlock w) interval true j2 dishes f1' with
        | (Except.error e, tr, j, _) =>
            (Except.error e, Ev.clearScreen :: (tr1 ++ trb1 ++ tr), j)
        | (Except.ok _, tr2, j3, f2) =>
          match boundaryRunE ok interval j3 f2 (!afters.isEmpty) with
          | (Except.error e, tr, j, _) =>
              (Except.error e, Ev.clearScreen :: (tr1 ++ trb1 ++ tr2 ++ tr), j)
          | (Except.ok _, trb2, j4, f2') =>
            match phaseRunE ok (preBlock w) interval false j4 afters f2' with
            | (r, tr3, j5, _) =>
                (r, Ev.clearScreen :: (tr1 ++ trb1 ++ tr2 ++ trb2 ++ tr3), j5)
  else (Except.error (), [Ev.clearScreen], 1)

/-- `say` (main.rs:89-101) with fallible terminal operations: the frame's
writes then the caption write, each propagating its failure immediately. -/
def sayE (ok : Nat → Bool) (side_dish : List Char) (caption : Option (List Char)) (w : Nat) :
    Except Unit Unit × List Ev × Nat :=
  match execEvs ok 0 ((create_dragon side_dish w).map Ev.write) with
  | (Except.error e, tr, j) => (Except.error e, tr, j)
  | (Except.ok _, tr, j) =>
    let r := execEvs ok j [Ev.write (padStr (caption.getD []) 60 Align.center)]
    (r.1, tr ++ r.2.1, r.2.2)

/-- A concrete oracle for witnesses: the first three terminal operations
succeed, all later ones fail. -/
def okW : Nat → Bool := fun i => decide (i < 3)

/-! ### General lemmas about the embedded primitives -/

theorem padStr_length (s : List Char) (w : Nat) (a : Align) :
    (padStr s w a).length = max w s.length := by
  unfold padStr
  split
  · next h => omega
  · next h =>
    dsimp only
    cases a <;> simp [List.length_append, List.length_replicate] <;> omega

theorem not_mem_padStr {c : Char} {s : List Char} (w : Nat) (a : Align)
    (hs : c ∉ s) (hc : c ≠ ' ') : c ∉ padStr s w a := by
  unfold padStr
  split
  · exact hs
  · dsimp only
    cases a <;> simp only [List.mem_append, List.mem_replicate] <;> tauto

theorem padStr_eq_of_le {s : List Char} {w : Nat} (a : Align) (h : w ≤ s.length) :
    padStr s w a = s := by
  unfold padStr
  rw [if_pos h]

theorem splitInclusiveNl_cons_nl (rest : List Char) :
    splitInclusiveNl ('\n' :: rest) = ['\n'] :: splitInclusiveNl rest := by
  simp [splitInclusiveNl]

theorem splitInclusiveNl_cons (c : Char) (rest : List Char) (hc : c ≠ '\n') :
    splitInclusiveNl (c :: rest) =
      match splitInclusiveNl rest with
      | [] => [[c]]
      | seg :: segs => (c :: seg) :: segs := by
  simp [splitInclusiveNl, hc]

theorem splitInclusiveNl_ne_nil {s : List Char} (h : s ≠ []) : splitInclusiveNl s ≠ [] := by
  cases s with
  | nil => exact absurd rfl h
  | cons c rest =>
    by_cases hc : c = '\n'
    · subst hc
      rw [splitInclusiveNl_cons_nl]
      simp
    · rw [splitInclusiveNl_cons c rest hc]
      rcases splitInclusiveNl rest with _ | ⟨seg, segs⟩ <;> simp

theorem splitInclusiveNl_length (s : List Char) (hs : s ≠ []) :
    (splitInclusiveNl s).length =
      s.count '\n' + (if s.getLast? = some '\n' then 0 else 1) := by
  induction s with
  | nil => exact absurd rfl hs
  | cons c rest ih =>
    cases rest with
    | nil =>
      by_cases hc : c = '\n'
      · subst hc
        rw [splitInclusiveNl_cons_nl]
        simp [splitInclusiveNl]
      · rw [splitInclusiveNl_cons c [] hc]
        simp [splitInclusiveNl, List.count_cons, hc]
    | cons y rest' =>
      have h2 := ih (by simp)
      have hlast : (c :: y :: rest').getLast? = (y :: rest').getLast? :=
        List.getLast?_cons_cons
      by_cases hc : c = '\n'
      · subst hc
        rw [splitInclusiveNl_cons_nl, List.length_cons, h2]
        rw [show ('\n' :: y :: rest').count '\n' = (y :: rest').count '\n' + 1 from by
          rw [List.count_cons]; simp]
        rw [hlast]
        omega
      · rw [splitInclusiveNl_cons c _ hc]
        have hne := splitInclusiveNl_ne_nil (s := y :: rest') (by simp)
        rcases hseg : splitInclusiveNl (y :: rest') with _ | ⟨seg, segs⟩
        · exact absurd hseg hne
        · rw [hseg] at h2
          simp only [List.length_cons] at h2 ⊢
          rw [show (c :: y :: rest').count '\n' = (y :: rest').count '\n' from by
            rw [List.count_cons]; simp [hc]]
          rw [hlast]
          omega

theorem rustLines_length (s : List Char) (hs : s ≠ []) :
    (rustLines s).length = s.count '\n' + (if s.getLast? = some '\n' then 0 else 1) := by
  unfold rustLines
  rw [List.length_map]
  exact splitInclusiveNl_length s hs

theorem rustLines_nil : rustLines [] = [] := rfl

theorem dragonSlots_length (s : List Char) : (dragonSlots s).length = 2 := by
  unfold dragonSlots
  split
  · rfl
  · unfold charSplitSlots
    split
    · rfl
    · split <;> rfl
  · rfl

theorem charSplitSlots_short (s : List Char) : ∀ r ∈ charSplitSlots s, r.length ≤ 16 := by
  intro r hr
  unfold charSplitSlots at hr
  split at hr
  · next h =>
    simp only [List.mem_cons, List.not_mem_nil, or_false] at hr
    rcases hr with rfl | rfl
    · exact h
    · simp
  · split at hr
    · next h1 h2 =>
      simp only [List.mem_cons, List.not_mem_nil, or_false] at hr
      rcases hr with rfl | rfl
      · simp [List.length_take]
      · simp only [List.length_drop]
        omega
    · simp only [List.mem_cons, List.not_mem_nil, or_false] at hr
      rcases hr with rfl | rfl
      · simp [List.length_take]
      · simp [List.length_take]

/-! ### Claim theorems -/

/-- Claim C6: for the empty payload both derived slots are the empty string,
each is rendered as exactly twenty spaces, and the substituted art is the
blank frame (the template with each slot marker replaced by twenty spaces),
a 15-line frame for every terminal width. -/
theorem empty_payload_blank (w : Nat) :
    dragonSlots [] = [[], []] ∧
    dragonPaddedSlots [] = [List.replicate 20 ' ', List.replicate 20 ' '] ∧
    substDragon [] = blankArt ∧
    (create_dragon [] w).length = 15 := by
  refine ⟨by decide, by decide, by decide, ?_⟩
  unfold create_dragon
  rw [List.length_map]
  decide

/-- Claim C7 counterexample: the slot capacity in the code is 16, not 8, so
payload "ABCDEFGHIJKLMNOPQ" does not yield slots "ABCDEFGH" / "IJKLMNOP". -/
theorem char_split_example_not_n8 :
    ¬ dragonPaddedSlots "ABCDEFGHIJKLMNOPQ".data =
      [padStr "ABCDEFGH".data 20 Align.center, padStr "IJKLMNOP".data 20 Align.center] := by
  decide

/-- Claim C7 (amended): with the code's slot capacity N = 16, payload
"ABCDEFGHIJKLMNOPQ" (17 characters) yields slot 1 = "ABCDEFGHIJKLMNOP" and
slot 2 = "Q" (no character dropped), both center-padded to 20 columns. -/
theorem char_split_example_n16 :
    dragonSlots "ABCDEFGHIJKLMNOPQ".data = ["ABCDEFGHIJKLMNOP".data, "Q".data] ∧
    dragonPaddedSlots "ABCDEFGHIJKLMNOPQ".data =
      ["  ABCDEFGHIJKLMNOP  ".data, "         Q          ".data] := by
  decide

/-- Claim C4 counterexample: a multi-line payload whose first line has 21
characters produces a padded slot of 21 characters — the line-aware branch
passes lines through and `pad_str` never truncates, so the fixed 20-column
budget can be exceeded. -/
theorem padded_slot_exceeds_budget :
    20 < ((dragonPaddedSlots "aaaaaaaaaaaaaaaaaaaaa\nb".data).getD 0 []).length := by
  decide

/-- Claim C4 (amended): for payloads with at most one line (the
character-count policy) every padded slot is exactly 20 characters; in
general a slot is never truncated by the padding step, whose output length
is exactly `max 20 (raw slot length)` — it exceeds 20 only when a raw line
of a multi-line payload already exceeds 20 characters. -/
theorem padded_slots_bounded (s : List Char) :
    ((rustLines s).length ≤ 1 → ∀ l ∈ dragonPaddedSlots s, l.length = 20) ∧
    (∀ l ∈ dragonSlots s, (padStr l 20 Align.center).length = max 20 l.length) := by
  constructor
  · intro h l hl
    unfold dragonPaddedSlots at hl
    rcases List.mem_map.mp hl with ⟨r, hr, rfl⟩
    have hshort : r.length ≤ 16 := by
      rcases hlen : (rustLines s).length with _ | n
      · unfold dragonSlots at hr
        rw [hlen] at hr
        simp only [List.mem_cons, List.not_mem_nil, or_false] at hr
        rcases hr with rfl | rfl <;> simp
      · rcases n with _ | n
        · unfold dragonSlots at hr
          rw [hlen] at hr
          exact charSplitSlots_short s r hr
        · rw [hlen] at h
          omega
    rw [padStr_length]
    omega
  · intro l _
    exact padStr_length l 20 Align.center

/-- Claim C4 amended-claim witness at a concrete payload. -/
theorem padded_slots_bounded_witness :
    ((dragonPaddedSlots "hi".data).getD 0 []).length = 20 := by
  have h := (padded_slots_bounded "hi".data).1 (by decide)
  exact h _ (by decide)

/-- Claim C2: a payload with at least two lines takes its slots directly
from the first two lines (extra lines dropped), and a single-line payload
falls back to the character-count split. -/
theorem line_aware_precedence (s : List Char) :
    (∀ l0 l1 rest, rustLines s = l0 :: l1 :: rest → dragonSlots s = [l0, l1]) ∧
    ((rustLines s).length = 1 → dragonSlots s = charSplitSlots s) := by
  constructor
  · intro l0 l1 rest h
    have hlen : (rustLines s).length = rest.length + 2 := by rw [h]; simp
    unfold dragonSlots
    rw [hlen]
    unfold lineSlots
    rw [h]
    simp [List.reverse_cons, List.dropLast_concat, List.getLast?_concat]
  · intro h
    unfold dragonSlots
    rw [h]

/-- Claim C2 witness at concrete payloads. -/
theorem line_aware_precedence_witness :
    dragonSlots "one\ntwo\nthree".data = ["one".data, "two".data] ∧
    dragonSlots "single".data = charSplitSlots "single".data := by
  constructor
  · exact (line_aware_precedence "one\ntwo\nthree".data).1
      "one".data "two".data ["three".data] (by decide)
  · exact (line_aware_precedence "single".data).2 (by decide)

theorem take_count_nl_zero (s : List Char) (h1 : (rustLines s).length = 1)
    (h33 : 33 ≤ s.length) : (s.take 32).count '\n' = 0 := by
  have hs : s ≠ [] := by
    intro h
    rw [h] at h33
    simp at h33
  have hform := rustLines_length s hs
  rw [h1] at hform
  by_cases hend : s.getLast? = some '\n'
  · rw [if_pos hend] at hform
    rcases List.mem_getLast?_eq_getLast (x := '\n') (l := s)
        (Option.mem_def.mpr hend) with ⟨hne, hlast⟩
    have hsplit : s.dropLast ++ ['\n'] = s := by
      conv_rhs => rw [← List.dropLast_append_getLast hne]
      rw [← hlast]
    have hcnt : s.dropLast.count '\n' = 0 := by
      have : (s.dropLast ++ ['\n']).count '\n' = s.dropLast.count '\n' + 1 := by
        rw [List.count_append]
        simp
      rw [hsplit] at this
      omega
    have htake : s.take 32 = s.dropLast.take 32 := by
      conv_lhs => rw [← hsplit]
      refine List.take_append_of_le_length ?_
      have : s.dropLast.length = s.length - 1 := List.length_dropLast s
      omega
    rw [htake]
    have hle := (List.take_sublist 32 s.dropLast).count_le '\n'
    omega
  · rw [if_neg hend] at hform
    have hle := (List.take_sublist 32 s).count_le '\n'
    omega

theorem rustLines_take32_single (s : List Char) (h1 : (rustLines s).length = 1)
    (h33 : 33 ≤ s.length) : (rustLines (s.take 32)).length = 1 := by
  have hc := take_count_nl_zero s h1 h33
  have hlen32 : (s.take 32).length = 32 := by
    rw [List.length_take]
    omega
  have hne : s.take 32 ≠ [] := by
    intro h
    rw [h] at hlen32
    simp at hlen32
  have hend : ¬ (s.take 32).getLast? = some '\n' := by
    intro h
    rcases List.mem_getLast?_eq_getLast (x := '\n') (l := s.take 32)
        (Option.mem_def.mpr h) with ⟨hne2, heq⟩
    have hmem : '\n' ∈ s.take 32 := heq ▸ List.getLast_mem hne2
    have := List.count_pos_iff.mpr hmem
    omega
  rw [rustLines_length _ hne, hc, if_neg hend]

/-- Claim C1: for a single-line payload the character-count split with slot
capacity N = 16 applies: length ≤ 16 gives (payload, empty); length in
(16, 32] gives (first 16 chars, remainder); length > 32 gives (first 16
chars, next 16 chars) and the rendered frame is the same as for the
truncated 32-character payload, so characters beyond index 32 never appear
in the output. -/
theorem char_count_split (s : List Char) (h : (rustLines s).length = 1) :
    (s.length ≤ 16 → dragonSlots s = [s, []]) ∧
    (16 < s.length → s.length ≤ 32 → dragonSlots s = [s.take 16, s.drop 16]) ∧
    (32 < s.length → dragonSlots s = [s.take 16, (s.drop 16).take 16] ∧
      ∀ w, create_dragon s w = create_dragon (s.take 32) w) := by
  have hsl : dragonSlots s = charSplitSlots s := by
    unfold dragonSlots
    rw [h]
  refine ⟨?_, ?_, ?_⟩
  · intro h16
    rw [hsl]
    unfold charSplitSlots
    rw [if_pos h16]
  · intro h16 h32
    rw [hsl]
    unfold charSplitSlots
    rw [if_neg (by omega), if_pos h32]
  · intro h32
    have hslots : dragonSlots s = [s.take 16, (s.drop 16).take 16] := by
      rw [hsl]
      unfold charSplitSlots
      rw [if_neg (by omega), if_neg (by omega)]
    refine ⟨hslots, ?_⟩
    intro w
    have h33 : 33 ≤ s.length := h32
    have h1' := rustLines_take32_single s h h33
    have hlen32 : (s.take 32).length = 32 := by
      rw [List.length_take]
      omega
    have hslots' : dragonSlots (s.take 32) = [s.take 16, (s.drop 16).take 16] := by
      have hx : dragonSlots (s.take 32) = charSplitSlots (s.take 32) := by
        unfold dragonSlots
        rw [h1']
      rw [hx]
      unfold charSplitSlots
      rw [if_neg (by omega), if_pos (by omega)]
      rw [List.take_take, List.drop_take]
      norm_num
    simp only [create_dragon, substDragon, dragonPaddedSlots, hslots, hslots']

/-- Claim C1 witness: a 40-character single-line payload. -/
theorem char_count_split_witness :
    dragonSlots "0123456789012345678901234567890123456789".data =
      ["0123456789012345".data, "6789012345678901".data] ∧
    create_dragon "0123456789012345678901234567890123456789".data 0 =
      create_dragon ("0123456789012345678901234567890123456789".data.take 32) 0 := by
  have h := (char_count_split "0123456789012345678901234567890123456789".data
    (by decide)).2.2 (by decide)
  refine ⟨?_, h.2 0⟩
  rw [h.1]
  decide

theorem replaceAllFuel_count (pat rep : List Char) (c : Char)
    (hp : c ∉ pat) (hr : c ∉ rep) :
    ∀ (fuel : Nat) (s : List Char), (replaceAllFuel pat rep fuel s).count c = s.count c := by
  intro fuel
  induction fuel with
  | zero =>
    intro s
    cases s <;> rfl
  | succ n ih =>
    intro s
    cases s with
    | nil => rfl
    | cons x rest =>
      simp only [replaceAllFuel]
      by_cases hcond : pat ≠ [] ∧ pat.isPrefixOf (x :: rest)
      · rw [if_pos hcond]
        obtain ⟨t, ht⟩ := List.isPrefixOf_iff_prefix.mp hcond.2
        have hdrop : (x :: rest).drop pat.length = t := by
          rw [← ht, List.drop_left]
        rw [List.count_append, hdrop, ih t, ← ht, List.count_append]
        have hcp : pat.count c = 0 := List.count_eq_zero.mpr hp
        have hcr : rep.count c = 0 := List.count_eq_zero.mpr hr
        omega
      · rw [if_neg hcond]
        rw [List.count_cons, List.count_cons, ih rest]

theorem replaceAllFuel_getLast (pat rep : List Char) (c0 : Char) (hp : c0 ∉ pat) :
    ∀ (fuel : Nat) (s : List Char), s.getLast? = some c0 →
      (replaceAllFuel pat rep fuel s).getLast? = some c0 := by
  intro fuel
  induction fuel with
  | zero =>
    intro s hs
    cases s with
    | nil => simp at hs
    | cons x rest => exact hs
  | succ n ih =>
    intro s hs
    cases s with
    | nil => simp at hs
    | cons x rest =>
      simp only [replaceAllFuel]
      by_cases hcond : pat ≠ [] ∧ pat.isPrefixOf (x :: rest)
      · rw [if_pos hcond]
        obtain ⟨t, ht⟩ := List.isPrefixOf_iff_prefix.mp hcond.2
        have hdrop : (x :: rest).drop pat.length = t := by
          rw [← ht, List.drop_left]
        rw [hdrop]
        have htne : t ≠ [] := by
          rintro rfl
          rw [List.append_nil] at ht
          rcases List.mem_getLast?_eq_getLast (Option.mem_def.mpr hs) with ⟨hne2, heq⟩
          have hmem : c0 ∈ x :: rest := by
            rw [heq]
            exact List.getLast_mem hne2
          rw [← ht] at hmem
          exact hp hmem
        have hlast_t : t.getLast? = some c0 := by
          rw [← ht, List.getLast?_append_of_ne_nil pat htne] at hs
          exact hs
        have hrec := ih t hlast_t
        have hrecne : replaceAllFuel pat rep n t ≠ [] := by
          intro hh
          rw [hh] at hrec
          simp at hrec
        rw [List.getLast?_append_of_ne_nil rep hrecne]
        exact hrec
      · rw [if_neg hcond]
        cases rest with
        | nil =>
          have hx : x = c0 := by simpa using hs
          subst hx
          simp [replaceAllFuel]
        | cons y rest' =>
          have hlast : (y :: rest').getLast? = some c0 := by
            rwa [List.getLast?_cons_cons] at hs
          have hrec := ih (y :: rest') hlast
          have hrecne : replaceAllFuel pat rep n (y :: rest') ≠ [] := by
            intro hh
            rw [hh] at hrec
            simp at hrec
          rcases List.exists_cons_of_ne_nil hrecne with ⟨z, zs, hz⟩
          rw [hz]
          rw [hz] at hrec
          rwa [List.getLast?_cons_cons]

theorem substDragon_count (s : List Char)
    (h0 : '\n' ∉ (dragonPaddedSlots s).getD 0 [])
    (h1 : '\n' ∉ (dragonPaddedSlots s).getD 1 []) :
    (substDragon s).count '\n' = 14 := by
  unfold substDragon replaceAll
  rw [replaceAllFuel_count _ _ _ (by decide) h1, replaceAllFuel_count _ _ _ (by decide) h0]
  decide

theorem substDragon_getLast (s : List Char) :
    (substDragon s).getLast? = some 'ゝ' := by
  unfold substDragon replaceAll
  apply replaceAllFuel_getLast _ _ _ (by decide)
  apply replaceAllFuel_getLast _ _ _ (by decide)
  decide

/-- Claim C3 counterexample: the payload "abc\n" — one line followed by a
trailing newline character — renders to 16 lines, not 15: the single-line
branch keeps the newline character inside the slot, and the substituted
newline splits a template line in two. -/
theorem frame_not_always_15 :
    ¬ (create_dragon "abc\n".data 0).length = 15 ∧
    (create_dragon "abc\n".data 0).length = 16 := by
  constructor
  · decide
  · decide

/-- Claim C3 (amended): for every payload whose derived slots contain no
newline character (all payloads except single-line ones keeping a trailing
newline within the first 32 characters), the rendered frame has exactly 15
lines; each line comes from a line of the substituted template, left-padded
with trailing spaces to exactly the terminal width when shorter, and left
unmodified (not truncated) when already at least the terminal width. -/
theorem frame_shape (s : List Char) (w : Nat)
    (h : ∀ l ∈ dragonSlots s, '\n' ∉ l) :
    (create_dragon s w).length = 15 ∧
    ∀ line ∈ create_dragon s w, ∃ pre ∈ rustLines (substDragon s),
      (pre.length < w ∧ line = pre ++ List.replicate (w - pre.length) ' ') ∨
      (w ≤ pre.length ∧ line = pre) := by
  obtain ⟨a, b, hab⟩ := List.length_eq_two.mp (dragonSlots_length s)
  have ha : '\n' ∉ a := h a (by rw [hab]; simp)
  have hb : '\n' ∉ b := h b (by rw [hab]; simp)
  have hps : dragonPaddedSlots s =
      [padStr a 20 Align.center, padStr b 20 Align.center] := by
    unfold dragonPaddedSlots
    rw [hab]
    rfl
  have h0 : '\n' ∉ (dragonPaddedSlots s).getD 0 [] := by
    rw [hps, List.getD_cons_zero]
    exact not_mem_padStr _ _ ha (by decide)
  have h1 : '\n' ∉ (dragonPaddedSlots s).getD 1 [] := by
    rw [hps, List.getD_cons_succ, List.getD_cons_zero]
    exact not_mem_padStr _ _ hb (by decide)
  constructor
  · unfold create_dragon
    rw [List.length_map]
    have hlast := substDragon_getLast s
    have hne : substDragon s ≠ [] := by
      intro hh
      rw [hh] at hlast
      simp at hlast
    rw [rustLines_length _ hne, substDragon_count s h0 h1]
    rw [if_neg (by rw [hlast]; decide)]
  · intro line hline
    unfold create_dragon at hline
    rcases List.mem_map.mp hline with ⟨pre, hpre, rfl⟩
    refine ⟨pre, hpre, ?_⟩
    by_cases hw : w ≤ pre.length
    · right
      exact ⟨hw, padStr_eq_of_le _ hw⟩
    · left
      refine ⟨by omega, ?_⟩
      unfold padStr
      rw [if_neg hw]

/-- Claim C3 amended-claim witness at a concrete payload and width. -/
theorem frame_shape_witness :
    (create_dragon "hi".data 3).length = 15 :=
  (frame_shape "hi".data 3 (by decide)).1

theorem charSplitSlotsChecked_eq (s : List Char) :
    charSplitSlotsChecked s = some (charSplitSlots s) := by
  unfold charSplitSlotsChecked charSplitSlots
  by_cases h16 : s.length ≤ 16
  · rw [if_pos h16, if_pos h16]
  · by_cases h32 : s.length ≤ 32
    · rw [if_neg h16, if_pos h32, if_neg h16, if_pos h32]
      unfold sliceChecked
      rw [if_pos (by omega), if_pos (by omega)]
      simp [List.drop_zero, List.take_length]
    · rw [if_neg h16, if_neg h32, if_neg h16, if_neg h32]
      unfold sliceChecked
      rw [if_pos (by omega), if_pos (by omega)]
      simp [List.drop_zero, List.drop_take]

/-- Claim C10: the frame renderer is total — with every slice and every
vector indexing modelled as fallible, `create_dragon` never hits an
out-of-bounds access: the checked variant always returns `some` of the
plain result, for every payload and terminal width. -/
theorem create_dragon_total (s : List Char) (w : Nat) :
    create_dragonChecked s w = some (create_dragon s w) := by
  have hslots : dragonSlotsChecked s = some (dragonSlots s) := by
    unfold dragonSlotsChecked dragonSlots
    rcases hn : (rustLines s).length with _ | n
    · rfl
    · rcases n with _ | m
      · exact charSplitSlotsChecked_eq s
      · rfl
  obtain ⟨a, b, hab⟩ := List.length_eq_two.mp (dragonSlots_length s)
  unfold create_dragonChecked
  rw [hslots]
  simp [create_dragon, substDragon, dragonPaddedSlots, hab]

theorem countSleeps_append (a b : List Ev) :
    countSleeps (a ++ b) = countSleeps a + countSleeps b := by
  unfold countSleeps
  rw [List.filter_append, List.length_append]

theorem countClears_append (a b : List Ev) :
    countClears (a ++ b) = countClears a + countClears b := by
  unfold countClears
  rw [List.filter_append, List.length_append]

theorem countSleeps_writes (ls : List (List Char)) :
    countSleeps (ls.map Ev.write) = 0 := by
  simp [countSleeps, List.filter_map, Function.comp, isSleep]

theorem countClears_writes (ls : List (List Char)) :
    countClears (ls.map Ev.write) = 0 := by
  simp [countClears, List.filter_map, Function.comp, isClear]

theorem countSleeps_clear_dragon (interval : Nat) :
    countSleeps (clear_dragon interval) = 1 := rfl

theorem countClears_clear_dragon (interval : Nat) :
    countClears (clear_dragon interval) = 1 := rfl

theorem countSleeps_cons_clear (L : List Ev) :
    countSleeps (Ev.clearScreen :: L) = countSleeps L := rfl

theorem countClears_cons_clear (L : List Ev) :
    countClears (Ev.clearScreen :: L) = countClears L + 1 := by
  simp [countClears, List.filter_cons, isClear]

theorem phaseEvs_single (block : List Char → List (List Char)) (interval : Nat)
    (sf : Bool) (x : List Char) (flag : Bool) :
    phaseEvs block interval sf [x] flag =
      ((block x).map Ev.write, if sf then true else flag) := rfl

theorem phaseEvs_cons_cons (block : List Char → List (List Char)) (interval : Nat)
    (sf : Bool) (x y : List Char) (rest' : List (List Char)) (flag : Bool) :
    phaseEvs block interval sf (x :: y :: rest') flag =
      ((block x).map Ev.write ++ clear_dragon interval ++
        (phaseEvs block interval sf (y :: rest') false).1,
       (phaseEvs block interval sf (y :: rest') false).2) := rfl

theorem countSleeps_phaseEvs (block : List Char → List (List Char)) (interval : Nat)
    (setsFlag : Bool) : ∀ (xs : List (List Char)) (flag : Bool),
    countSleeps (phaseEvs block interval setsFlag xs flag).1 = xs.length - 1 := by
  intro xs
  induction xs with
  | nil => intro flag; rfl
  | cons x rest ih =>
    intro flag
    cases rest with
    | nil =>
      show countSleeps ((block x).map Ev.write) = 0
      exact countSleeps_writes _
    | cons y rest' =>
      rw [phaseEvs_cons_cons]
      show countSleeps ((block x).map Ev.write ++ clear_dragon interval ++
        (phaseEvs block interval setsFlag (y :: rest') false).1) = _
      rw [countSleeps_append, countSleeps_append, countSleeps_writes,
        countSleeps_clear_dragon, ih false]
      simp
      omega

theorem countClears_phaseEvs (block : List Char → List (List Char)) (interval : Nat)
    (setsFlag : Bool) : ∀ (xs : List (List Char)) (flag : Bool),
    countClears (phaseEvs block interval setsFlag xs flag).1 = xs.length - 1 := by
  intro xs
  induction xs with
  | nil => intro flag; rfl
  | cons x rest ih =>
    intro flag
    cases rest with
    | nil =>
      show countClears ((block x).map Ev.write) = 0
      exact countClears_writes _
    | cons y rest' =>
      rw [phaseEvs_cons_cons]
      show countClears ((block x).map Ev.write ++ clear_dragon interval ++
        (phaseEvs block interval setsFlag (y :: rest') false).1) = _
      rw [countClears_append, countClears_append, countClears_writes,
        countClears_clear_dragon, ih false]
      simp
      omega

theorem phaseEvs_flag_true (block : List Char → List (List Char)) (interval : Nat) :
    ∀ (xs : List (List Char)) (flag : Bool),
      (phaseEvs block interval true xs flag).2 = if xs.isEmpty then flag else true := by
  intro xs
  induction xs with
  | nil => intro flag; rfl
  | cons x rest ih =>
    intro flag
    cases rest with
    | nil => rfl
    | cons y rest' =>
      rw [phaseEvs_cons_cons]
      show (phaseEvs block interval true (y :: rest') false).2 = _
      rw [ih false]
      simp

theorem phaseEvs_nil (block : List Char → List (List Char)) (interval : Nat)
    (setsFlag : Bool) (flag : Bool) :
    phaseEvs block interval setsFlag [] flag = ([], flag) := rfl

theorem boundaryEvs_false_cond (interval : Nat) (flag : Bool) :
    boundaryEvs interval flag false = ([], flag) := by
  simp [boundaryEvs]

theorem preBlock_ne_nil (w : Nat) (c : List Char) : preBlock w c ≠ [] := by
  simp [preBlock]

theorem dishBlock_ne_nil (w : Nat) (d : List Char) : dishBlock w d ≠ [] := by
  simp [dishBlock]

theorem getLast?_cons_of_ne_nil {α : Type} (a : α) (L : List α) (h : L ≠ []) :
    (a :: L).getLast? = L.getLast? := by
  rcases List.exists_cons_of_ne_nil h with ⟨z, zs, rfl⟩
  rw [List.getLast?_cons_cons]

theorem phaseEvs_getLast (block : List Char → List (List Char)) (interval : Nat)
    (setsFlag : Bool) (hbl : ∀ x, block x ≠ []) :
    ∀ (xs : List (List Char)) (flag : Bool), xs ≠ [] →
      ∃ l, (phaseEvs block interval setsFlag xs flag).1.getLast? = some (Ev.write l) := by
  intro xs
  induction xs with
  | nil => intro flag h; exact absurd rfl h
  | cons x rest ih =>
    intro flag _
    cases rest with
    | nil =>
      refine ⟨(block x).getLast (hbl x), ?_⟩
      show ((block x).map Ev.write).getLast? = _
      rw [List.getLast?_map, List.getLast?_eq_getLast_of_ne_nil (hbl x)]
      rfl
    | cons y rest' =>
      rcases ih false (by simp) with ⟨l, hl⟩
      refine ⟨l, ?_⟩
      rw [phaseEvs_cons_cons]
      show ((block x).map Ev.write ++ clear_dragon interval ++
        (phaseEvs block interval setsFlag (y :: rest') false).1).getLast? = _
      have hne : (phaseEvs block interval setsFlag (y :: rest') false).1 ≠ [] := by
        intro hh
        rw [hh] at hl
        simp at hl
      rw [List.getLast?_append_of_ne_nil _ hne]
      exact hl

theorem countSleeps_nil : countSleeps [] = 0 := rfl

theorem countClears_nil : countClears [] = 0 := rfl

theorem countSleeps_boundaryEvs (interval : Nat) (flag cond : Bool) :
    countSleeps (boundaryEvs interval flag cond).1 = if flag && cond then 1 else 0 := by
  cases hfc : flag && cond <;>
    simp [boundaryEvs, hfc, countSleeps, clear_dragon, isSleep, List.filter]

theorem countClears_boundaryEvs (interval : Nat) (flag cond : Bool) :
    countClears (boundaryEvs interval flag cond).1 = if flag && cond then 1 else 0 := by
  cases hfc : flag && cond <;>
    simp [boundaryEvs, hfc, countClears, clear_dragon, isClear, List.filter]

theorem trace_getLast_aux (block : List Char → List (List Char)) (interval : Nat)
    (sf : Bool) (hbl : ∀ x, block x ≠ []) (A : List Ev) (xs : List (List Char))
    (flag : Bool) (hxs : xs ≠ []) :
    ∃ l, (Ev.clearScreen :: (A ++ (phaseEvs block interval sf xs flag).1)).getLast? =
      some (Ev.write l) := by
  obtain ⟨l, hl⟩ := phaseEvs_getLast block interval sf hbl xs flag hxs
  refine ⟨l, ?_⟩
  have hne : (phaseEvs block interval sf xs flag).1 ≠ [] := by
    intro hh
    rw [hh] at hl
    simp at hl
  rw [getLast?_cons_of_ne_nil _ _ (by simp [hne]), List.getLast?_append_of_ne_nil _ hne]
  exact hl

/-- Claim C5: in animation mode with N pre-captions, M payloads and K
after-captions, the number of sleep-then-clear transitions equals
(N-1) + (1 if N>0 and M>0) + (M-1) + (1 if (N>0 or M>0) and K>0) + (K-1)
(in truncated Nat subtraction, so an empty phase contributes 0); the number
of screen clears is exactly one more — the initial clear, which is the very
first event of the run; and whenever at least one item exists the last event
of the run is a write, i.e. no clear follows the very last item. -/
theorem anime_clear_transitions (pres dishes afters : List (List Char)) (interval w : Nat) :
    countSleeps (animeTrace pres dishes afters interval w) =
      (pres.length - 1) + (if pres ≠ [] ∧ dishes ≠ [] then 1 else 0) +
      (dishes.length - 1) +
      (if (pres ≠ [] ∨ dishes ≠ []) ∧ afters ≠ [] then 1 else 0) +
      (afters.length - 1) ∧
    countClears (animeTrace pres dishes afters interval w) =
      countSleeps (animeTrace pres dishes afters interval w) + 1 ∧
    (animeTrace pres dishes afters interval w).head? = some Ev.clearScreen ∧
    (pres ≠ [] ∨ dishes ≠ [] ∨ afters ≠ [] →
      ∃ l, (animeTrace pres dishes afters interval w).getLast? = some (Ev.write l)) := by
  refine ⟨?_, ?_, rfl, ?_⟩
  · rcases pres with _ | ⟨p, ps⟩ <;> rcases dishes with _ | ⟨d, ds⟩ <;>
      rcases afters with _ | ⟨f, fs⟩ <;>
      simp [animeTrace, countSleeps_cons_clear, countSleeps_append,
        countSleeps_phaseEvs, countSleeps_boundaryEvs, phaseEvs_flag_true,
        boundaryEvs_false_cond, phaseEvs_nil, countSleeps_nil, countClears_nil] <;>
      omega
  · rcases pres with _ | ⟨p, ps⟩ <;> rcases dishes with _ | ⟨d, ds⟩ <;>
      rcases afters with _ | ⟨f, fs⟩ <;>
      simp [animeTrace, countSleeps_cons_clear, countSleeps_append,
        countSleeps_phaseEvs, countSleeps_boundaryEvs, countClears_cons_clear,
        countClears_append, countClears_phaseEvs, countClears_boundaryEvs,
        phaseEvs_flag_true, boundaryEvs_false_cond, phaseEvs_nil,
        countSleeps_nil, countClears_nil]
  · intro h
    rcases afters with _ | ⟨f, fs⟩
    · rcases dishes with _ | ⟨d, ds⟩
      · rcases pres with _ | ⟨p, ps⟩
        · simp at h
        · have haux := trace_getLast_aux (preBlock w) interval true (preBlock_ne_nil w)
            [] (p :: ps) false (by simp)
          obtain ⟨l, hl⟩ := haux
          refine ⟨l, ?_⟩
          simp only [animeTrace]
          simp only [boundaryEvs_false_cond, phaseEvs_nil, List.isEmpty_nil,
            Bool.not_true, List.append_nil]
          simpa using hl
      · obtain ⟨l, hl⟩ := trace_getLast_aux (dishBlock w) interval true (dishBlock_ne_nil w)
          ((phaseEvs (preBlock w) interval true pres false).1 ++
            (boundaryEvs interval (phaseEvs (preBlock w) interval true pres false).2
              (!List.isEmpty (d :: ds))).1)
          (d :: ds)
          (boundaryEvs interval (phaseEvs (preBlock w) interval true pres false).2
            (!List.isEmpty (d :: ds))).2 (by simp)
        refine ⟨l, ?_⟩
        simp only [animeTrace]
        simp only [boundaryEvs_false_cond, phaseEvs_nil, List.isEmpty_nil,
          Bool.not_true, List.append_nil]
        exact hl
    · obtain ⟨l, hl⟩ := trace_getLast_aux (preBlock w) interval false (preBlock_ne_nil w)
        ((phaseEvs (preBlock w) interval true pres false).1 ++
          (boundaryEvs interval (phaseEvs (preBlock w) interval true pres false).2
            (!List.isEmpty dishes)).1 ++
          (phaseEvs (dishBlock w) interval true dishes
            (boundaryEvs interval (phaseEvs (preBlock w) interval true pres false).2
              (!List.isEmpty dishes)).2).1 ++
          (boundaryEvs interval
            (phaseEvs (dishBlock w) interval true dishes
              (boundaryEvs interval (phaseEvs (preBlock w) interval true pres false).2
                (!List.isEmpty dishes)).2).2 (!List.isEmpty (f :: fs))).1)
        (f :: fs)
        (boundaryEvs interval
          (phaseEvs (dishBlock w) interval true dishes
            (boundaryEvs interval (phaseEvs (preBlock w) interval true pres false).2
              (!List.isEmpty dishes)).2).2 (!List.isEmpty (f :: fs))).2 (by simp)
      refine ⟨l, ?_⟩
      simp only [animeTrace]
      simpa using hl

/-- Claim C5 witness at a concrete animation plan. -/
theorem anime_clear_transitions_witness :
    countSleeps (animeTrace [[], []] [[]] [[]] 0 0) = 3 ∧
    (∃ l, (animeTrace [[], []] [[]] [[]] 0 0).getLast? = some (Ev.write l)) := by
  have h := anime_clear_transitions [[], []] [[]] [[]] 0 0
  constructor
  · rw [h.1]
    simp
  · exact h.2.2.2 (by simp)

/-- Claim C8: in static mode (the `say` command — the one invocation without
an interval; the `anime` subcommand always has one) every emitted event is a
write: no sleep and no screen clear ever occurs, for any payload, caption
and terminal width, so all output prints back-to-back. -/
theorem say_static_no_clear (side_dish : List Char) (caption : Option (List Char)) (w : Nat) :
    (sayTrace side_dish caption w).all isWrite = true ∧
    countSleeps (sayTrace side_dish caption w) = 0 ∧
    countClears (sayTrace side_dish caption w) = 0 := by
  refine ⟨?_, ?_, ?_⟩
  · unfold sayTrace
    rw [List.all_append, Bool.and_eq_true]
    constructor
    · rw [List.all_eq_true]
      intro e he
      rcases List.mem_map.mp he with ⟨l, _, rfl⟩
      rfl
    · rw [List.all_eq_true]
      intro e he
      simp only [List.mem_singleton] at he
      subst he
      rfl
  · unfold sayTrace
    rw [countSleeps_append, countSleeps_writes]
    rfl
  · unfold sayTrace
    rw [countClears_append, countClears_writes]
    rfl

theorem execEvs_nil (ok : Nat → Bool) (i : Nat) :
    execEvs ok i [] = (Except.ok (), [], i) := rfl

theorem execEvs_cons (ok : Nat → Bool) (i : Nat) (e : Ev) (rest : List Ev) :
    execEvs ok i (e :: rest) =
      if isTermOp e then
        if ok i then
          ((execEvs ok (i + 1) rest).1, e :: (execEvs ok (i + 1) rest).2.1,
            (execEvs ok (i + 1) rest).2.2)
        else (Except.error (), [e], i + 1)
      else
        ((execEvs ok i rest).1, e :: (execEvs ok i rest).2.1, (execEvs ok i rest).2.2) := rfl

theorem execEvs_append_ok (ok : Nat → Bool) :
    ∀ (t1 t2 : List Ev) (i : Nat) (tr1 : List Ev) (j : Nat),
      execEvs ok i t1 = (Except.ok (), tr1, j) →
      execEvs ok i (t1 ++ t2) =
        ((execEvs ok j t2).1, tr1 ++ (execEvs ok j t2).2.1, (execEvs ok j t2).2.2) := by
  intro t1
  induction t1 with
  | nil =>
    intro t2 i tr1 j h
    rw [execEvs_nil] at h
    simp only [Prod.mk.injEq] at h
    obtain ⟨-, htr, hj⟩ := h
    subst htr
    subst hj
    simp
  | cons e rest ih =>
    intro t2 i tr1 j h
    rw [execEvs_cons] at h
    rw [List.cons_append, execEvs_cons]
    by_cases hterm : isTermOp e
    · rw [if_pos hterm] at h ⊢
      by_cases hok : ok i
      · rw [if_pos hok] at h ⊢
        rcases hrec : execEvs ok (i + 1) rest with ⟨r, tr', j'⟩
        rw [hrec] at h
        simp only [Prod.mk.injEq] at h
        obtain ⟨hr, htr, hj⟩ := h
        have hstep : execEvs ok (i + 1) rest = (Except.ok (), tr', j) := by
          rw [hrec, hr, hj]
        rw [ih t2 (i + 1) tr' j hstep]
        subst htr
        simp
      · rw [if_neg hok] at h
        simp only [Prod.mk.injEq] at h
        exact absurd h.1 (by simp)
    · rw [if_neg hterm] at h ⊢
      rcases hrec : execEvs ok i rest with ⟨r, tr', j'⟩
      rw [hrec] at h
      simp only [Prod.mk.injEq] at h
      obtain ⟨hr, htr, hj⟩ := h
      have hstep : execEvs ok i rest = (Except.ok (), tr', j) := by
        rw [hrec, hr, hj]
      rw [ih t2 i tr' j hstep]
      subst htr
      simp

theorem execEvs_append_err (ok : Nat → Bool) :
    ∀ (t1 t2 : List Ev) (i : Nat) (tr1 : List Ev) (j : Nat),
      execEvs ok i t1 = (Except.error (), tr1, j) →
      execEvs ok i (t1 ++ t2) = (Except.error (), tr1, j) := by
  intro t1
  induction t1 with
  | nil =>
    intro t2 i tr1 j h
    rw [execEvs_nil] at h
    simp only [Prod.mk.injEq] at h
    exact absurd h.1 (by simp)
  | cons e rest ih =>
    intro t2 i tr1 j h
    rw [execEvs_cons] at h
    rw [List.cons_append, execEvs_cons]
    by_cases hterm : isTermOp e
    · rw [if_pos hterm] at h ⊢
      by_cases hok : ok i
      · rw [if_pos hok] at h ⊢
        rcases hrec : execEvs ok (i + 1) rest with ⟨r, tr', j'⟩
        rw [hrec] at h
        simp only [Prod.mk.injEq] at h
        obtain ⟨hr, htr, hj⟩ := h
        have hstep : execEvs ok (i + 1) rest = (Except.error (), tr', j) := by
          rw [hrec, hr, hj]
        rw [ih t2 (i + 1) tr' j hstep, htr]
      · rw [if_neg hok] at h ⊢
        exact h
    · rw [if_neg hterm] at h ⊢
      rcases hrec : execEvs ok i rest with ⟨r, tr', j'⟩
      rw [hrec] at h
      simp only [Prod.mk.injEq] at h
      obtain ⟨hr, htr, hj⟩ := h
      have hstep : execEvs ok i rest = (Except.error (), tr', j) := by
        rw [hrec, hr, hj]
      rw [ih t2 i tr' j hstep, htr]

theorem execEvs_ok_trace (ok : Nat → Bool) :
    ∀ (evs : List Ev) (i : Nat) (tr : List Ev) (j : Nat),
      execEvs ok i evs = (Except.ok (), tr, j) → tr = evs := by
  intro evs
  induction evs with
  | nil =>
    intro i tr j h
    rw [execEvs_nil] at h
    simp only [Prod.mk.injEq] at h
    exact h.2.1.symm
  | cons e rest ih =>
    intro i tr j h
    rw [execEvs_cons] at h
    by_cases hterm : isTermOp e
    · rw [if_pos hterm] at h
      by_cases hok : ok i
      · rw [if_pos hok] at h
        rcases hrec : execEvs ok (i + 1) rest with ⟨r, tr', j'⟩
        rw [hrec] at h
        simp only [Prod.mk.injEq] at h
        obtain ⟨hr, htr, hj⟩ := h
        have hrest := ih (i + 1) tr' j' (by rw [hrec, hr])
        rw [← htr, hrest]
      · rw [if_neg hok] at h
        simp only [Prod.mk.injEq] at h
        exact absurd h.1 (by simp)
    · rw [if_neg hterm] at h
      rcases hrec : execEvs ok i rest with ⟨r, tr', j'⟩
      rw [hrec] at h
      simp only [Prod.mk.injEq] at h
      obtain ⟨hr, htr, hj⟩ := h
      have hrest := ih i tr' j' (by rw [hrec, hr])
      rw [← htr, hrest]

theorem execEvs_err_shape (ok : Nat → Bool) :
    ∀ (evs : List Ev) (i : Nat) (tr : List Ev) (j : Nat),
      execEvs ok i evs = (Except.error (), tr, j) →
      tr.isPrefixOf evs = true ∧
      1 ≤ countOps tr ∧
      (∃ op, tr.getLast? = some op ∧ isTermOp op = true) ∧
      ok (i + (countOps tr - 1)) = false ∧
      (∀ k, k < countOps tr - 1 → ok (i + k) = true) := by
  intro evs
  induction evs with
  | nil =>
    intro i tr j h
    rw [execEvs_nil] at h
    simp only [Prod.mk.injEq] at h
    exact absurd h.1 (by simp)
  | cons e rest ih =>
    intro i tr j h
    rw [execEvs_cons] at h
    by_cases hterm : isTermOp e
    · rw [if_pos hterm] at h
      by_cases hok : ok i
      · rw [if_pos hok] at h
        rcases hrec : execEvs ok (i + 1) rest with ⟨r, tr', j'⟩
        rw [hrec] at h
        simp only [Prod.mk.injEq] at h
        obtain ⟨hr, htr, hj⟩ := h
        have hrec' : execEvs ok (i + 1) rest = (Except.error (), tr', j') := by
          rw [hrec, hr]
        obtain ⟨hpre, hops, ⟨op, hlast, hop⟩, hfail, hprev⟩ := ih (i + 1) tr' j' hrec'
        subst htr
        have hco : countOps (e :: tr') = countOps tr' + 1 := by
          simp [countOps, List.filter_cons, hterm]
        have htrne : tr' ≠ [] := by
          intro hh
          subst hh
          simp [countOps] at hops
        refine ⟨?_, by omega, ⟨op, ?_, hop⟩, ?_, ?_⟩
        · obtain ⟨t, ht⟩ := List.isPrefixOf_iff_prefix.mp hpre
          rw [List.isPrefixOf_iff_prefix]
          exact ⟨t, by rw [List.cons_append, ht]⟩
        · rw [getLast?_cons_of_ne_nil _ _ htrne]
          exact hlast
        · rw [hco]
          have harith : i + (countOps tr' + 1 - 1) = i + 1 + (countOps tr' - 1) := by omega
          rw [harith]
          exact hfail
        · intro k hk
          rw [hco] at hk
          cases k with
          | zero => simpa using hok
          | succ k' =>
            have harith : i + (k' + 1) = i + 1 + k' := by omega
            rw [harith]
            exact hprev k' (by omega)
      · rw [if_neg hok] at h
        simp only [Prod.mk.injEq] at h
        obtain ⟨-, htr, hj⟩ := h
        subst htr
        have hco : countOps [e] = 1 := by
          simp [countOps, List.filter_cons, hterm]
        refine ⟨?_, by omega, ⟨e, rfl, hterm⟩, ?_, ?_⟩
        · rw [List.isPrefixOf_iff_prefix]
          exact ⟨rest, rfl⟩
        · rw [hco]
          simpa using hok
        · intro k hk
          rw [hco] at hk
          omega
    · rw [if_neg hterm] at h
      rcases hrec : execEvs ok i rest with ⟨r, tr', j'⟩
      rw [hrec] at h
      simp only [Prod.mk.injEq] at h
      obtain ⟨hr, htr, hj⟩ := h
      have hrec' : execEvs ok i rest = (Except.error (), tr', j') := by
        rw [hrec, hr]
      obtain ⟨hpre, hops, ⟨op, hlast, hop⟩, hfail, hprev⟩ := ih i tr' j' hrec'
      subst htr
      have hco : countOps (e :: tr') = countOps tr' := by
        simp [countOps, List.filter_cons, hterm]
      have htrne : tr' ≠ [] := by
        intro hh
        subst hh
        simp [countOps] at hops
      refine ⟨?_, by omega, ⟨op, ?_, hop⟩, ?_, ?_⟩
      · obtain ⟨t, ht⟩ := List.isPrefixOf_iff_prefix.mp hpre
        rw [List.isPrefixOf_iff_prefix]
        exact ⟨t, by rw [List.cons_append, ht]⟩
      · rw [getLast?_cons_of_ne_nil _ _ htrne]
        exact hlast
      · rw [hco]
        exact hfail
      · intro k hk
        rw [hco] at hk
        exact hprev k hk

theorem phaseRunE_eq (ok : Nat → Bool) (block : List Char → List (List Char))
    (interval : Nat) (sf : Bool) :
    ∀ (xs : List (List Char)) (i : Nat) (flag : Bool),
      (phaseRunE ok block interval sf i xs flag).1 =
        (execEvs ok i (phaseEvs block interval sf xs flag).1).1 ∧
      (phaseRunE ok block interval sf i xs flag).2.1 =
        (execEvs ok i (phaseEvs block interval sf xs flag).1).2.1 ∧
      (phaseRunE ok block interval sf i xs flag).2.2.1 =
        (execEvs ok i (phaseEvs block interval sf xs flag).1).2.2 ∧
      ((execEvs ok i (phaseEvs block interval sf xs flag).1).1 = Except.ok () →
        (phaseRunE ok block interval sf i xs flag).2.2.2 =
          (phaseEvs block interval sf xs flag).2) := by
  intro xs
  induction xs with
  | nil =>
    intro i flag
    exact ⟨rfl, rfl, rfl, fun _ => rfl⟩
  | cons x rest ih =>
    intro i flag
    cases rest with
    | nil =>
      rw [phaseEvs_single]
      dsimp only
      rcases hW : execEvs ok i ((block x).map Ev.write) with ⟨rW, trW, jW⟩
      rcases rW with e | u
      · cases e
        have hrun : phaseRunE ok block interval sf i [x] flag =
            (Except.error (), trW, jW, flag) := by
          rw [phaseRunE]
          rw [hW]
        rw [hrun]
        exact ⟨rfl, rfl, rfl, fun habs => absurd habs (by simp)⟩
      · cases u
        have hrun : phaseRunE ok block interval sf i [x] flag =
            (Except.ok (), trW, jW, if sf then true else flag) := by
          rw [phaseRunE]
          rw [hW]
        rw [hrun]
        exact ⟨rfl, rfl, rfl, fun _ => rfl⟩
    | cons y rest' =>
      rw [phaseEvs_cons_cons]
      dsimp only
      rcases hW : execEvs ok i ((block x).map Ev.write) with ⟨rW, trW, jW⟩
      rcases rW with e | u
      · cases e
        have hrun : phaseRunE ok block interval sf i (x :: y :: rest') flag =
            (Except.error (), trW, jW, flag) := by
          rw [phaseRunE]
          rw [hW]
        have hexec : execEvs ok i ((block x).map Ev.write ++ clear_dragon interval ++
            (phaseEvs block interval sf (y :: rest') false).1) =
            (Except.error (), trW, jW) := by
          rw [List.append_assoc]
          exact execEvs_append_err ok _ _ i trW jW hW
        rw [hrun, hexec]
        exact ⟨rfl, rfl, rfl, fun habs => absurd habs (by simp)⟩
      · cases u
        rcases hC : execEvs ok jW (clear_dragon interval) with ⟨rC, trC, jC⟩
        rcases rC with e2 | u2
        · cases e2
          have hrun : phaseRunE ok block interval sf i (x :: y :: rest') flag =
              (Except.error (), trW ++ trC, jC, if sf then true else flag) := by
            rw [phaseRunE]
            rw [hW]
            dsimp only
            rw [hC]
          have hexec : execEvs ok i ((block x).map Ev.write ++ clear_dragon interval ++
              (phaseEvs block interval sf (y :: rest') false).1) =
              (Except.error (), trW ++ trC, jC) := by
            rw [List.append_assoc]
            rw [execEvs_append_ok ok _ _ i trW jW hW]
            rw [execEvs_append_err ok _ _ jW trC jC hC]
          rw [hrun, hexec]
          exact ⟨rfl, rfl, rfl, fun habs => absurd habs (by simp)⟩
        · cases u2
          obtain ⟨ih1, ih2, ih3, ih4⟩ := ih jC false
          have hrun : phaseRunE ok block interval sf i (x :: y :: rest') flag =
              ((phaseRunE ok block interval sf jC (y :: rest') false).1,
               trW ++ trC ++ (phaseRunE ok block interval sf jC (y :: rest') false).2.1,
               (phaseRunE ok block interval sf jC (y :: rest') false).2.2.1,
               (phaseRunE ok block interval sf jC (y :: rest') false).2.2.2) := by
            rw [phaseRunE]
            rw [hW]
            dsimp only
            rw [hC]
          have hexec : execEvs ok i ((block x).map Ev.write ++ clear_dragon interval ++
              (phaseEvs block interval sf (y :: rest') false).1) =
              ((execEvs ok jC (phaseEvs block interval sf (y :: rest') false).1).1,
               trW ++ (trC ++
                 (execEvs ok jC (phaseEvs block interval sf (y :: rest') false).1).2.1),
               (execEvs ok jC (phaseEvs block interval sf (y :: rest') false).1).2.2) := by
            rw [List.append_assoc]
            rw [execEvs_append_ok ok _ _ i trW jW hW]
            rw [execEvs_append_ok ok _ _ jW trC jC hC]
          rw [hrun, hexec]
          refine ⟨ih1, ?_, ih3, ?_⟩
          · rw [ih2, List.append_assoc]
          · intro hok
            exact ih4 hok

theorem boundaryRunE_eq (ok : Nat → Bool) (interval : Nat) (i : Nat) (flag cond : Bool) :
    (boundaryRunE ok interval i flag cond).1 =
      (execEvs ok i (boundaryEvs interval flag cond).1).1 ∧
    (boundaryRunE ok interval i flag cond).2.1 =
      (execEvs ok i (boundaryEvs interval flag cond).1).2.1 ∧
    (boundaryRunE ok interval i flag cond).2.2.1 =
      (execEvs ok i (boundaryEvs interval flag cond).1).2.2 ∧
    ((execEvs ok i (boundaryEvs interval flag cond).1).1 = Except.ok () →
      (boundaryRunE ok interval i flag cond).2.2.2 = (boundaryEvs interval flag cond).2) := by
  by_cases hfc : (flag && cond) = true
  · simp only [boundaryRunE, boundaryEvs, if_pos hfc]
    refine ⟨?_, ?_, ?_, fun _ => ?_⟩ <;> first | rfl | trivial
  · simp only [boundaryRunE, boundaryEvs, if_neg hfc]
    refine ⟨?_, ?_, ?_, fun _ => ?_⟩ <;> first | rfl | trivial

theorem animeE_eq (ok : Nat → Bool) (pres dishes afters : List (List Char))
    (interval w : Nat) :
    animeE ok pres dishes afters interval w =
      execEvs ok 0 (animeTrace pres dishes afters interval w) := by
  have htr : animeTrace pres dishes afters interval w =
      Ev.clearScreen ::
        ((phaseEvs (preBlock w) interval true pres false).1 ++
         (boundaryEvs interval (phaseEvs (preBlock w) interval true pres false).2
            (!dishes.isEmpty)).1 ++
         (phaseEvs (dishBlock w) interval true dishes
            (boundaryEvs interval (phaseEvs (preBlock w) interval true pres false).2
              (!dishes.isEmpty)).2).1 ++
         (boundaryEvs interval
            (phaseEvs (dishBlock w) interval true dishes
              (boundaryEvs interval (phaseEvs (preBlock w) interval true pres false).2
                (!dishes.isEmpty)).2).2 (!afters.isEmpty)).1 ++
         (phaseEvs (preBlock w) interval false afters
            (boundaryEvs interval
              (phaseEvs (dishBlock w) interval true dishes
                (boundaryEvs interval (phaseEvs (preBlock w) interval true pres false).2
                  (!dishes.isEmpty)).2).2 (!afters.isEmpty)).2).1) := rfl
  have htermC : isTermOp Ev.clearScreen = true := rfl
  by_cases hok : ok 0 = true
  · -- the initial clear succeeds
    obtain ⟨q1, q2, q3, q4⟩ := phaseRunE_eq ok (preBlock w) interval true pres 1 false
    rcases hP1 : phaseRunE ok (preBlock w) interval true 1 pres false with ⟨r1, tr1, j1, f1⟩
    rw [hP1] at q1 q2 q3 q4
    dsimp only at q1 q2 q3 q4
    rcases hE1 : execEvs ok 1 (phaseEvs (preBlock w) interval true pres false).1
      with ⟨r1e, tr1e, j1e⟩
    rw [hE1] at q1 q2 q3 q4
    dsimp only at q1 q2 q3 q4
    subst q1
    subst q2
    subst q3
    rcases r1 with e1u | u1
    · -- pre-caption phase fails
      cases e1u
      have hL : execEvs ok 1
          ((phaseEvs (preBlock w) interval true pres false).1 ++
           (boundaryEvs interval (phaseEvs (preBlock w) interval true pres false).2
              (!dishes.isEmpty)).1 ++
           (phaseEvs (dishBlock w) interval true dishes
              (boundaryEvs interval (phaseEvs (preBlock w) interval true pres false).2
                (!dishes.isEmpty)).2).1 ++
           (boundaryEvs interval
              (phaseEvs (dishBlock w) interval true dishes
                (boundaryEvs interval (phaseEvs (preBlock w) interval true pres false).2
                  (!dishes.isEmpty)).2).2 (!afters.isEmpty)).1 ++
           (phaseEvs (preBlock w) interval false afters
              (boundaryEvs interval
                (phaseEvs (dishBlock w) interval true dishes
                  (boundaryEvs interval (phaseEvs (preBlock w) interval true pres false).2
                    (!dishes.isEmpty)).2).2 (!afters.isEmpty)).2).1) =
          (Except.error (), tr1, j1) := by
        simp only [List.append_assoc]
        exact execEvs_append_err ok _ _ 1 tr1 j1 hE1
      rw [animeE, if_pos hok, hP1]
      rw [htr, execEvs_cons, htermC, if_pos rfl, if_pos hok, hL]
    · cases u1
      have hf1 : f1 = (phaseEvs (preBlock w) interval true pres false).2 := q4 rfl
      subst hf1
      obtain ⟨s1, s2, s3, s4⟩ := boundaryRunE_eq ok interval j1
        (phaseEvs (preBlock w) interval true pres false).2 (!dishes.isEmpty)
      rcases hB1 : boundaryRunE ok interval j1
          (phaseEvs (preBlock w) interval true pres false).2 (!dishes.isEmpty)
        with ⟨rb1, trb1, jb1, fb1⟩
      rw [hB1] at s1 s2 s3 s4
      dsimp only at s1 s2 s3 s4
      rcases hEb1 : execEvs ok j1
          (boundaryEvs interval (phaseEvs (preBlock w) interval true pres false).2
            (!dishes.isEmpty)).1
        with ⟨rb1e, trb1e, jb1e⟩
      rw [hEb1] at s1 s2 s3 s4
      dsimp only at s1 s2 s3 s4
      subst s1
      subst s2
      subst s3
      rcases rb1 with eb1u | ub1
      · -- the boundary clear into the dish phase fails
        cases eb1u
        have hL : execEvs ok 1
            ((phaseEvs (preBlock w) interval true pres false).1 ++
             (boundaryEvs interval (phaseEvs (preBlock w) interval true pres false).2
                (!dishes.isEmpty)).1 ++
             (phaseEvs (dishBlock w) interval true dishes
                (boundaryEvs interval (phaseEvs (preBlock w) interval true pres false).2
                  (!dishes.isEmpty)).2).1 ++
             (boundaryEvs interval
                (phaseEvs (dishBlock w) interval true dishes
                  (boundaryEvs interval (phaseEvs (preBlock w) interval true pres false).2
                    (!dishes.isEmpty)).2).2 (!afters.isEmpty)).1 ++
             (phaseEvs (preBlock w) interval false afters
                (boundaryEvs interval
                  (phaseEvs (dishBlock w) interval true dishes
                    (boundaryEvs interval (phaseEvs (preBlock w) interval true pres false).2
                      (!dishes.isEmpty)).2).2 (!afters.isEmpty)).2).1) =
            (Except.error (), tr1 ++ trb1, jb1) := by
          simp only [List.append_assoc]
          rw [execEvs_append_ok ok _ _ 1 tr1 j1 hE1]
          rw [execEvs_append_err ok _ _ j1 trb1 jb1 hEb1]
        rw [animeE, if_pos hok, hP1]
        dsimp only
        rw [hB1]
        rw [htr, execEvs_cons, htermC, if_pos rfl, if_pos hok, hL]
      · cases ub1
        have hfb1 : fb1 =
            (boundaryEvs interval (phaseEvs (preBlock w) interval true pres false).2
              (!dishes.isEmpty)).2 := s4 rfl
        subst hfb1
        obtain ⟨t1, t2, t3, t4⟩ := phaseRunE_eq ok (dishBlock w) interval true dishes jb1
          (boundaryEvs interval (phaseEvs (preBlock w) interval true pres false).2
            (!dishes.isEmpty)).2
        rcases hP2 : phaseRunE ok (dishBlock w) interval true jb1 dishes
            (boundaryEvs interval (phaseEvs (preBlock w) interval true pres false).2
              (!dishes.isEmpty)).2
          with ⟨r2, tr2, j2, f2⟩
        rw [hP2] at t1 t2 t3 t4
        dsimp only at t1 t2 t3 t4
        rcases hE2 : execEvs ok jb1
            (phaseEvs (dishBlock w) interval true dishes
              (boundaryEvs interval (phaseEvs (preBlock w) interval true pres false).2
                (!dishes.isEmpty)).2).1
          with ⟨r2e, tr2e, j2e⟩
        rw [hE2] at t1 t2 t3 t4
        dsimp only at t1 t2 t3 t4
        subst t1
        subst t2
        subst t3
        rcases r2 with e2u | u2
        · -- dish phase fails
          cases e2u
          have hL : execEvs ok 1
              ((phaseEvs (preBlock w) interval true pres false).1 ++
               (boundaryEvs interval (phaseEvs (preBlock w) interval true pres false).2
                  (!dishes.isEmpty)).1 ++
               (phaseEvs (dishBlock w) interval true dishes
                  (boundaryEvs interval (phaseEvs (preBlock w) interval true pres false).2
                    (!dishes.isEmpty)).2).1 ++
               (boundaryEvs interval
                  (phaseEvs (dishBlock w) interval true dishes
                    (boundaryEvs interval (phaseEvs (preBlock w) interval true pres false).2
                      (!dishes.isEmpty)).2).2 (!afters.isEmpty)).1 ++
               (phaseEvs (preBlock w) interval false afters
                  (boundaryEvs interval
                    (phaseEvs (dishBlock w) interval true dishes
                      (boundaryEvs interval (phaseEvs (preBlock w) interval true pres false).2
                        (!dishes.isEmpty)).2).2 (!afters.isEmpty)).2).1) =
              (Except.error (), tr1 ++ (trb1 ++ tr2), j2) := by
            simp only [List.append_assoc]
            rw [execEvs_append_ok ok _ _ 1 tr1 j1 hE1]
            rw [execEvs_append_ok ok _ _ j1 trb1 jb1 hEb1]
            rw [execEvs_append_err ok _ _ jb1 tr2 j2 hE2]
          rw [animeE, if_pos hok, hP1]
          dsimp only
          rw [hB1]
          dsimp only
          rw [hP2]
          rw [htr, execEvs_cons, htermC, if_pos rfl, if_pos hok, hL]
          simp [List.append_assoc]
        · cases u2
          have hf2 : f2 =
              (phaseEvs (dishBlock w) interval true dishes
                (boundaryEvs interval (phaseEvs (preBlock w) interval true pres false).2
                  (!dishes.isEmpty)).2).2 := t4 rfl
          subst hf2
          obtain ⟨v1, v2, v3, v4⟩ := boundaryRunE_eq ok interval j2
            (phaseEvs (dishBlock w) interval true dishes
              (boundaryEvs interval (phaseEvs (preBlock w) interval true pres false).2
                (!dishes.isEmpty)).2).2 (!afters.isEmpty)
          rcases hB2 : boundaryRunE ok interval j2
              (phaseEvs (dishBlock w) interval true dishes
                (boundaryEvs interval (phaseEvs (preBlock w) interval true pres false).2
                  (!dishes.isEmpty)).2).2 (!afters.isEmpty)
            with ⟨rb2, trb2, jb2, fb2⟩
          rw [hB2] at v1 v2 v3 v4
          dsimp only at v1 v2 v3 v4
          rcases hEb2 : execEvs ok j2
              (boundaryEvs interval
                (phaseEvs (dishBlock w) interval true dishes
                  (boundaryEvs interval (phaseEvs (preBlock w) interval true pres false).2
                    (!dishes.isEmpty)).2).2 (!afters.isEmpty)).1
            with ⟨rb2e, trb2e, jb2e⟩
          rw [hEb2] at v1 v2 v3 v4
          dsimp only at v1 v2 v3 v4
          subst v1
          subst v2
          subst v3
          rcases rb2 with eb2u | ub2
          · -- the boundary clear into the after phase fails
            cases eb2u
            have hL : execEvs ok 1
                ((phaseEvs (preBlock w) interval true pres false).1 ++
                 (boundaryEvs interval (phaseEvs (preBlock w) interval true pres false).2
                    (!dishes.isEmpty)).1 ++
                 (phaseEvs (dishBlock w) interval true dishes
                    (boundaryEvs interval (phaseEvs (preBlock w) interval true pres false).2
                      (!dishes.isEmpty)).2).1 ++
                 (boundaryEvs interval
                    (phaseEvs (dishBlock w) interval true dishes
                      (boundaryEvs interval (phaseEvs (preBlock w) interval true pres false).2
                        (!dishes.isEmpty)).2).2 (!afters.isEmpty)).1 ++
                 (phaseEvs (preBlock w) interval false afters
                    (boundaryEvs interval
                      (phaseEvs (dishBlock w) interval true dishes
                        (boundaryEvs interval
                          (phaseEvs (preBlock w) interval true pres false).2
                          (!dishes.isEmpty)).2).2 (!afters.isEmpty)).2).1) =
                (Except.error (), tr1 ++ (trb1 ++ (tr2 ++ trb2)), jb2) := by
              simp only [List.append_assoc]
              rw [execEvs_append_ok ok _ _ 1 tr1 j1 hE1]
              rw [execEvs_append_ok ok _ _ j1 trb1 jb1 hEb1]
              rw [execEvs_append_ok ok _ _ jb1 tr2 j2 hE2]
              rw [execEvs_append_err ok _ _ j2 trb2 jb2 hEb2]
            rw [animeE, if_pos hok, hP1]
            dsimp only
            rw [hB1]
            dsimp only
            rw [hP2]
            dsimp only
            rw [hB2]
            rw [htr, execEvs_cons, htermC, if_pos rfl, if_pos hok, hL]
            simp [List.append_assoc]
          · cases ub2
            have hfb2 : fb2 =
                (boundaryEvs interval
                  (phaseEvs (dishBlock w) interval true dishes
                    (boundaryEvs interval (phaseEvs (preBlock w) interval true pres false).2
                      (!dishes.isEmpty)).2).2 (!afters.isEmpty)).2 := v4 rfl
            subst hfb2
            obtain ⟨z1, z2, z3, z4⟩ := phaseRunE_eq ok (preBlock w) interval false afters jb2
              (boundaryEvs interval
                (phaseEvs (dishBlock w) interval true dishes
                  (boundaryEvs interval (phaseEvs (preBlock w) interval true pres false).2
                    (!dishes.isEmpty)).2).2 (!afters.isEmpty)).2
            rcases hP3 : phaseRunE ok (preBlock w) interval false jb2 afters
                (boundaryEvs interval
                  (phaseEvs (dishBlock w) interval true dishes
                    (boundaryEvs interval (phaseEvs (preBlock w) interval true pres false).2
                      (!dishes.isEmpty)).2).2 (!afters.isEmpty)).2
              with ⟨r3, tr3, j3, f3⟩
            rw [hP3] at z1 z2 z3
            dsimp only at z1 z2 z3
            rcases hE3 : execEvs ok jb2
                (phaseEvs (preBlock w) interval false afters
                  (boundaryEvs interval
                    (phaseEvs (dishBlock w) interval true dishes
                      (boundaryEvs interval (phaseEvs (preBlock w) interval true pres false).2
                        (!dishes.isEmpty)).2).2 (!afters.isEmpty)).2).1
              with ⟨r3e, tr3e, j3e⟩
            rw [hE3] at z1 z2 z3
            dsimp only at z1 z2 z3
            subst z1
            subst z2
            subst z3
            have hL : execEvs ok 1
                ((phaseEvs (preBlock w) interval true pres false).1 ++
                 (boundaryEvs interval (phaseEvs (preBlock w) interval true pres false).2
                    (!dishes.isEmpty)).1 ++
                 (phaseEvs (dishBlock w) interval true dishes
                    (boundaryEvs interval (phaseEvs (preBlock w) interval true pres false).2
                      (!dishes.isEmpty)).2).1 ++
                 (boundaryEvs interval
                    (phaseEvs (dishBlock w) interval true dishes
                      (boundaryEvs interval (phaseEvs (preBlock w) interval true pres false).2
                        (!dishes.isEmpty)).2).2 (!afters.isEmpty)).1 ++
                 (phaseEvs (preBlock w) interval false afters
                    (boundaryEvs interval
                      (phaseEvs (dishBlock w) interval true dishes
                        (boundaryEvs interval
                          (phaseEvs (preBlock w) interval true pres false).2
                          (!dishes.isEmpty)).2).2 (!afters.isEmpty)).2).1) =
                (r3, tr1 ++ (trb1 ++ (tr2 ++ (trb2 ++ tr3))), j3) := by
              simp only [List.append_assoc]
              rw [execEvs_append_ok ok _ _ 1 tr1 j1 hE1]
              rw [execEvs_append_ok ok _ _ j1 trb1 jb1 hEb1]
              rw [execEvs_append_ok ok _ _ jb1 tr2 j2 hE2]
              rw [execEvs_append_ok ok _ _ j2 trb2 jb2 hEb2]
              rw [hE3]
            rw [animeE, if_pos hok, hP1]
            dsimp only
            rw [hB1]
            dsimp only
            rw [hP2]
            dsimp only
            rw [hB2]
            dsimp only
            rw [hP3]
            rw [htr, execEvs_cons, htermC, if_pos rfl, if_pos hok, hL]
            simp [List.append_assoc]
  · rw [animeE, if_neg hok]
    rw [htr, execEvs_cons, htermC, if_pos rfl, if_neg hok]

theorem sayE_eq (ok : Nat → Bool) (side_dish : List Char) (caption : Option (List Char))
    (w : Nat) :
    sayE ok side_dish caption w = execEvs ok 0 (sayTrace side_dish caption w) := by
  rcases hW : execEvs ok 0 ((create_dragon side_dish w).map Ev.write) with ⟨rW, trW, jW⟩
  rcases rW with e | u
  · cases e
    have hrun : sayE ok side_dish caption w = (Except.error (), trW, jW) := by
      rw [sayE]
      rw [hW]
    rw [hrun]
    unfold sayTrace
    exact (execEvs_append_err ok _ _ 0 trW jW hW).symm
  · cases u
    have hrun : sayE ok side_dish caption w =
        ((execEvs ok jW [Ev.write (padStr (caption.getD []) 60 Align.center)]).1,
         trW ++ (execEvs ok jW [Ev.write (padStr (caption.getD []) 60 Align.center)]).2.1,
         (execEvs ok jW [Ev.write (padStr (caption.getD []) 60 Align.center)]).2.2) := by
      rw [sayE]
      rw [hW]
    rw [hrun]
    unfold sayTrace
    exact (execEvs_append_ok ok _ _ 0 trW jW hW).symm

/-- Claim C9: terminal failures abort the run immediately.  `anime` and
`say` with fallible terminal operations behave exactly like executing their
event traces operation by operation and stopping at the first failing write
or clear (Rust's `?` propagation): a successful run performs the whole
trace; a failing run surfaces the error, its performed events are a prefix
of the intended trace whose last element is the single failed terminal
operation (every earlier one succeeded), and no write, sleep or clear
happens after the failure — no retry, no recovery. -/
theorem anime_say_error_aborts (ok : Nat → Bool) (side_dish : List Char)
    (caption : Option (List Char)) (pres dishes afters : List (List Char))
    (interval w : Nat) :
    animeE ok pres dishes afters interval w =
      execEvs ok 0 (animeTrace pres dishes afters interval w) ∧
    sayE ok side_dish caption w = execEvs ok 0 (sayTrace side_dish caption w) ∧
    ∀ r tr j, execEvs ok 0 (animeTrace pres dishes afters interval w) = (r, tr, j) →
      (r = Except.ok () → tr = animeTrace pres dishes afters interval w) ∧
      (r = Except.error () →
        tr.isPrefixOf (animeTrace pres dishes afters interval w) = true ∧
        (∃ op, tr.getLast? = some op ∧ isTermOp op = true) ∧
        ok (countOps tr - 1) = false ∧
        (∀ k, k < countOps tr - 1 → ok k = true)) := by
  refine ⟨animeE_eq ok pres dishes afters interval w, sayE_eq ok side_dish caption w, ?_⟩
  intro r tr j h
  constructor
  · intro hr
    subst hr
    exact execEvs_ok_trace ok _ 0 tr j h
  · intro hr
    subst hr
    obtain ⟨hpre, -, hop, hfail, hprev⟩ := execEvs_err_shape ok _ 0 tr j h
    refine ⟨hpre, hop, ?_, ?_⟩
    · simpa using hfail
    · intro k hk
      simpa using hprev k hk

/-- Claim C9 witness: with an oracle whose operations fail from index 3 on,
the animation run errors out and its performed events are a prefix of the
intended trace. -/
theorem anime_say_error_aborts_witness :
    (animeE okW [[]] [] [] 0 0).1 = Except.error () ∧
    ((execEvs okW 0 (animeTrace [[]] [] [] 0 0)).2.1).isPrefixOf
      (animeTrace [[]] [] [] 0 0) = true := by
  have h := anime_say_error_aborts okW [] none [[]] [] [] 0 0
  have h3 := h.2.2 (execEvs okW 0 (animeTrace [[]] [] [] 0 0)).1
    (execEvs okW 0 (animeTrace [[]] [] [] 0 0)).2.1
    (execEvs okW 0 (animeTrace [[]] [] [] 0 0)).2.2 rfl
  have herr : (execEvs okW 0 (animeTrace [[]] [] [] 0 0)).1 = Except.error () := by
    rfl
  refine ⟨?_, (h3.2 herr).1⟩
  rw [h.1]
  exact herr
